import Mathlib

/-!
A verification development for the collection aggregators
(datafusion-ext-plans/src/agg/collect.rs) and the broadcast
semi/anti/existence joiner (datafusion-ext-plans/src/joins/bhj/semi_join.rs)
of the blaze native engine.

Modelling conventions (shallow embedding of the Rust source):

* Scalars are modelled as natural numbers. The engine encodes scalars with
  the external lossless codec pair write_scalar / read_scalar
  (datafusion-ext-commons, out of scope per the design document); since the
  codec round-trips losslessly, byte-slice equality of whole encodings
  coincides with scalar equality, and we let the raw byte buffer hold the
  decoded scalars themselves, one cell per encoded scalar.  An
  (offset, length) pair referencing the encoding of one scalar becomes the
  cell index of that scalar.
* Vec capacity is modelled as the vector length (its minimal value).  All
  memory-accounting code recomputes mem_size around each mutation, so the
  accounting discipline is insensitive to this choice; only the byte
  constants change.
* Rust usize arithmetic (wrapping / panicking subtraction) is modelled with
  truncated Nat subtraction; every proved scenario stays where the two
  agree unless noted.
* The hashbrown RawTable of the Huge variant and the HashSet of hash codes
  are modelled as lists searched by value: with a correct table, lookup by
  (hash, byte-equality) is lookup by value equality, since equal values have
  equal hashes.  RawTable iteration order is unspecified in the source; the
  model fixes insertion order and we prove only order-insensitive facts
  about Huge contents.
-/

namespace Blaze

/-- A scalar value. The engine is generic over logical types; only
decidable equality of whole values is used by the modelled code. -/
abbrev Scalar := Nat

/-- Size in bytes of one (u32, u32) offset/length pair
(size_of in the source). -/
def pairSize : Nat := 8

/-- One group's ordered collection: struct AccList of collect.rs, an
append-only raw buffer of length-prefixed scalar encodings. -/
structure AccList where
  raw : List Scalar
deriving DecidableEq

instance : Inhabited AccList := ⟨⟨[]⟩⟩

/-- AccList::mem_size: the capacity of the raw buffer (capacity modelled
as length). -/
def AccList.mem_size (l : AccList) : Nat := l.raw.length

/-- AccList::append: write_scalar appends one encoded scalar to raw. -/
def AccList.append (l : AccList) (v : Scalar) : AccList := ⟨l.raw ++ [v]⟩

/-- AccList::merge: self.raw.extend(std::mem::take(other.raw)); returns
(mutated self, drained other). -/
def AccList.merge (l other : AccList) : AccList × AccList :=
  (⟨l.raw ++ other.raw⟩, ⟨[]⟩)

/-- AccList::into_values: streaming-decode raw front to back. -/
def AccList.into_values (l : AccList) : List Scalar := l.raw

/-- AccList::ref_raw: the byte slice at an (offset, length) pair; in the
unit model, the scalar stored at the given cell index. -/
def AccList.ref_raw (l : AccList) (pos : Nat) : Scalar := l.raw.getD pos 0

/-- enum InternalSet of collect.rs: a small inline vector of
offset/length pairs, or a hash table of them (the table is modelled as a
list searched by the value it references, see the module header). -/
inductive InternalSet where
  | Small (s : List Nat)
  | Huge (s : List Nat)
deriving DecidableEq

instance : Inhabited InternalSet := ⟨.Small []⟩

/-- InternalSet::len. -/
def InternalSet.len : InternalSet → Nat
  | .Small s => s.length
  | .Huge s => s.length

/-- InternalSet::into_iter, as the underlying list of pairs. -/
def InternalSet.toList : InternalSet → List Nat
  | .Small s => s
  | .Huge s => s

/-- InternalSet::is Small variant test (for stating claims about the
adaptive transition). -/
def InternalSet.isSmall : InternalSet → Bool
  | .Small _ => true
  | .Huge _ => false

/-- InternalSet::is Huge variant test. -/
def InternalSet.isHuge : InternalSet → Bool
  | .Small _ => false
  | .Huge _ => true

/-- InternalSet::convert_to_huge_if_needed, as written in the source: the
body rehashes and converts whenever the set is in the Small variant; it
performs no size check before converting. -/
def InternalSet.convert_to_huge_if_needed : InternalSet → InternalSet
  | .Small s => .Huge s
  | .Huge s => .Huge s

/-- struct AccSet of collect.rs: one group's deduplicated collection, a
raw list plus the set of pair references into it. -/
structure AccSet where
  list : AccList
  set : InternalSet
deriving DecidableEq

instance : Inhabited AccSet := ⟨⟨[]⟩, .Small []⟩

/-- AccSet::mem_size: raw capacity plus an estimated 8 bytes per set
entry. -/
def AccSet.mem_size (a : AccSet) : Nat :=
  a.list.mem_size + a.set.len * pairSize

/-- AccSet::append_raw_inline: the value has already been written at
raw_start; probe the set and truncate the raw buffer back if the value
was already present.  The Small arm scans linearly, the Huge arm probes
the hash table with byte equality (value equality in the model). -/
def AccSet.append_raw_inline (a : AccSet) (raw_start : Nat) : AccSet :=
  match a.set with
  | .Small s =>
    if s.any fun pl => a.list.ref_raw pl = a.list.ref_raw raw_start then
      { a with list := ⟨a.list.raw.take raw_start⟩ }
    else
      { a with set := (InternalSet.Small (s ++ [raw_start])).convert_to_huge_if_needed }
  | .Huge s =>
    if s.any fun pl => a.list.ref_raw pl = a.list.ref_raw raw_start then
      { a with list := ⟨a.list.raw.take raw_start⟩ }
    else
      { a with set := .Huge (s ++ [raw_start]) }

/-- AccSet::append: write the scalar at the end of raw, then
append_raw_inline from the pre-write length. -/
def AccSet.append (a : AccSet) (v : Scalar) : AccSet :=
  let old_raw_len := a.list.raw.length
  AccSet.append_raw_inline { a with list := ⟨a.list.raw ++ [v]⟩ } old_raw_len

/-- AccSet::append_raw: insert a value coming from another set; raw is
extended only when the value is not already present. -/
def AccSet.append_raw (a : AccSet) (v : Scalar) : AccSet :=
  match a.set with
  | .Small s =>
    if s.any fun pl => a.list.ref_raw pl = v then a
    else
      { list := ⟨a.list.raw ++ [v]⟩,
        set := (InternalSet.Small (s ++ [a.list.raw.length])).convert_to_huge_if_needed }
  | .Huge s =>
    if s.any fun pl => a.list.ref_raw pl = v then a
    else { list := ⟨a.list.raw ++ [v]⟩, set := .Huge (s ++ [a.list.raw.length]) }

/-- AccSet::merge: swap so the probed set is the smaller one, then drain
the other set (std::mem::take leaves the Default, an empty Small set) and
append_raw each of its referenced values.  The other slot's raw buffer is
NOT cleared by the source: the drained AccSet keeps its raw list. -/
def AccSet.merge (self other : AccSet) : AccSet × AccSet :=
  let p := if self.set.len < other.set.len then (other, self) else (self, other)
  let merged := p.2.set.toList.foldl
    (fun acc pl => acc.append_raw (p.2.list.ref_raw pl)) p.1
  (merged, { list := p.2.list, set := .Small [] })

/-- AccSet::into_values: decode the raw buffer front to back (the set is
not consulted). -/
def AccSet.into_values (a : AccSet) : List Scalar := a.list.into_values

/-- size_of for an AccSet slot handle (a representative 64-bit value; the
accounting claims depend only on it being one fixed constant). -/
def sizeOfAccSet : Nat := 48

/-- size_of for an AccList slot handle (one Vec header on 64-bit). -/
def sizeOfAccList : Nat := 24

/-- struct AccSetColumn of collect.rs: a vector of AccSet slots indexed by
group ordinal and a running mem_used counter.  The dt field (argument
DataType, used only to drive read_scalar) is dropped: decoding is the
identity in the unit model. -/
structure AccSetColumn where
  set : List AccSet
  mem_used : Nat
deriving DecidableEq

/-- AccCollectionColumn::empty for AccSetColumn. -/
def AccSetColumn.empty : AccSetColumn := ⟨[], 0⟩

/-- AccColumn::num_records. -/
def AccSetColumn.num_records (c : AccSetColumn) : Nat := c.set.length

/-- AccColumn::mem_used(): the running counter plus the slot-vector
capacity overhead (capacity modelled as length). -/
def AccSetColumn.memUsed (c : AccSetColumn) : Nat :=
  c.mem_used + c.set.length * sizeOfAccSet

/-- AccCollectionColumn::append_item for AccSetColumn: append to the slot
and adjust mem_used by the recomputed delta. -/
def AccSetColumn.append_item (c : AccSetColumn) (idx : Nat) (v : Scalar) : AccSetColumn :=
  let old_mem_size := (c.set.getD idx default).mem_size
  let slot := (c.set.getD idx default).append v
  { set := c.set.set idx slot,
    mem_used := c.mem_used + (slot.mem_size - old_mem_size) }

/-- AccCollectionColumn::merge_items for AccSetColumn: merge the two
slots, add the self delta, and subtract the other slot's full previous
mem_size from the other column. -/
def AccSetColumn.merge_items (c : AccSetColumn) (idx : Nat) (other : AccSetColumn)
    (other_idx : Nat) : AccSetColumn × AccSetColumn :=
  let self_value_mem_size := (c.set.getD idx default).mem_size
  let other_value_mem_size := (other.set.getD other_idx default).mem_size
  let m := AccSet.merge (c.set.getD idx default) (other.set.getD other_idx default)
  ({ set := c.set.set idx m.1,
     mem_used := c.mem_used + (m.1.mem_size - self_value_mem_size) },
   { set := other.set.set other_idx m.2,
     mem_used := other.mem_used - other_value_mem_size })

/-- AccCollectionColumn::save_raw for AccSetColumn: one length-prefixed
record holding the slot's raw bytes (the set index is not written). -/
def AccSetColumn.save_raw (c : AccSetColumn) (idx : Nat) : List Scalar :=
  (c.set.getD idx default).list.raw

/-- The body of AccSetColumn::load_raw once one record has been read from
the reader: clear the slot, replay every decoded scalar through
append_item, then add the rebuilt slot's mem_size to mem_used again (this
last addition is on top of the deltas append_item already applied). -/
def AccSetColumn.load_raw_step (c : AccSetColumn) (idx : Nat) (payload : List Scalar) :
    AccSetColumn :=
  let c1 : AccSetColumn :=
    { set := c.set.set idx default,
      mem_used := c.mem_used - (c.set.getD idx default).mem_size }
  let c2 := payload.foldl (fun acc v => acc.append_item idx v) c1
  { c2 with mem_used := c2.mem_used + (c2.set.getD idx default).mem_size }

/-- AccCollectionColumn::load_raw for AccSetColumn over a reader modelled
as the list of remaining length-prefixed records; reading at end of
stream is the read_len error. -/
def AccSetColumn.load_raw (c : AccSetColumn) (idx : Nat) :
    List (List Scalar) → Option (AccSetColumn × List (List Scalar))
  | [] => none
  | payload :: rest => some (c.load_raw_step idx payload, rest)

/-- AccCollectionColumn::take_values for AccSetColumn: subtract the
slot's mem_size, take the slot and decode it. -/
def AccSetColumn.take_values (c : AccSetColumn) (idx : Nat) :
    List Scalar × AccSetColumn :=
  ((c.set.getD idx default).into_values,
   { set := c.set.set idx default,
     mem_used := c.mem_used - (c.set.getD idx default).mem_size })

/-- AccColumn::resize for AccSetColumn: on shrink, subtract the evicted
slots' mem_size and truncate; on growth, extend with default slots. -/
def AccSetColumn.resize (c : AccSetColumn) (len : Nat) : AccSetColumn :=
  if len < c.set.length then
    { set := c.set.take len,
      mem_used := c.mem_used - ((c.set.drop len).map AccSet.mem_size).sum }
  else
    { set := c.set ++ List.replicate (len - c.set.length) default,
      mem_used := c.mem_used }

/-- AccCollectionColumn::spill for AccSetColumn: save_raw of every
selected index appended to one stream. -/
def AccSetColumn.spill (c : AccSetColumn) (idxs : List Nat) : List (List Scalar) :=
  idxs.map fun i => c.save_raw i

/-- The while loop of AccCollectionColumn::unspill, as written in the
source: while idx is below num_records, load_raw(idx) again — the loop
index is never advanced, so each iteration reloads the same slot and the
loop can only leave through a read error. -/
def AccSetColumn.unspillLoop :
    AccSetColumn → Nat → List (List Scalar) → Option (AccSetColumn × List (List Scalar))
  | c, idx, [] => if idx < c.num_records then none else some (c, [])
  | c, idx, payload :: rest =>
    if idx < c.num_records then
      AccSetColumn.unspillLoop (c.load_raw_step idx payload) idx rest
    else some (c, payload :: rest)

/-- AccCollectionColumn::unspill for AccSetColumn: remember the old
length, resize by num_rows, and run the (non-advancing) load loop. -/
def AccSetColumn.unspill (c : AccSetColumn) (num_rows : Nat) (r : List (List Scalar)) :
    Option (AccSetColumn × List (List Scalar)) :=
  AccSetColumn.unspillLoop (c.resize (c.num_records + num_rows)) c.num_records r

/-- AggGenericCollect::partial_update restricted to one group ordinal:
the zipped selections pair each argument row with this accumulator index,
a scalar is extracted per row, and null scalars are silently dropped. -/
def AccSetColumn.partial_update (c : AccSetColumn) (idx : Nat)
    (args : List (Option Scalar)) : AccSetColumn :=
  args.foldl
    (fun acc s => match s with
      | none => acc
      | some v => acc.append_item idx v) c

/-- struct AccListColumn of collect.rs: a vector of AccList slots and a
running mem_used counter. -/
structure AccListColumn where
  list : List AccList
  mem_used : Nat
deriving DecidableEq

/-- AccCollectionColumn::empty for AccListColumn. -/
def AccListColumn.empty : AccListColumn := ⟨[], 0⟩

/-- AccColumn::num_records. -/
def AccListColumn.num_records (c : AccListColumn) : Nat := c.list.length

/-- AccColumn::mem_used() for AccListColumn. -/
def AccListColumn.memUsed (c : AccListColumn) : Nat :=
  c.mem_used + c.list.length * sizeOfAccList

/-- AccCollectionColumn::append_item for AccListColumn. -/
def AccListColumn.append_item (c : AccListColumn) (idx : Nat) (v : Scalar) : AccListColumn :=
  let old_mem_size := (c.list.getD idx default).mem_size
  let slot := (c.list.getD idx default).append v
  { list := c.list.set idx slot,
    mem_used := c.mem_used + (slot.mem_size - old_mem_size) }

/-- AccCollectionColumn::merge_items for AccListColumn. -/
def AccListColumn.merge_items (c : AccListColumn) (idx : Nat) (other : AccListColumn)
    (other_idx : Nat) : AccListColumn × AccListColumn :=
  let self_value_mem_size := (c.list.getD idx default).mem_size
  let other_value_mem_size := (other.list.getD other_idx default).mem_size
  let m := AccList.merge (c.list.getD idx default) (other.list.getD other_idx default)
  ({ list := c.list.set idx m.1,
     mem_used := c.mem_used + (m.1.mem_size - self_value_mem_size) },
   { list := other.list.set other_idx m.2,
     mem_used := other.mem_used - other_value_mem_size })

/-- AccCollectionColumn::save_raw for AccListColumn. -/
def AccListColumn.save_raw (c : AccListColumn) (idx : Nat) : List Scalar :=
  (c.list.getD idx default).raw

/-- The body of AccListColumn::load_raw once one record is available:
clear the slot, store the raw bytes verbatim, and adjust mem_used by the
old and new slot sizes (no replay through append_item here). -/
def AccListColumn.load_raw_step (c : AccListColumn) (idx : Nat) (payload : List Scalar) :
    AccListColumn :=
  let c1 : AccListColumn :=
    { list := c.list.set idx default,
      mem_used := c.mem_used - (c.list.getD idx default).mem_size }
  { list := c1.list.set idx ⟨payload⟩,
    mem_used := c1.mem_used + (⟨payload⟩ : AccList).mem_size }

/-- AccCollectionColumn::load_raw for AccListColumn. -/
def AccListColumn.load_raw (c : AccListColumn) (idx : Nat) :
    List (List Scalar) → Option (AccListColumn × List (List Scalar))
  | [] => none
  | payload :: rest => some (c.load_raw_step idx payload, rest)

/-- AccCollectionColumn::take_values for AccListColumn. -/
def AccListColumn.take_values (c : AccListColumn) (idx : Nat) :
    List Scalar × AccListColumn :=
  ((c.list.getD idx default).into_values,
   { list := c.list.set idx default,
     mem_used := c.mem_used - (c.list.getD idx default).mem_size })

/-- AccColumn::resize for AccListColumn. -/
def AccListColumn.resize (c : AccListColumn) (len : Nat) : AccListColumn :=
  if len < c.list.length then
    { list := c.list.take len,
      mem_used := c.mem_used - ((c.list.drop len).map AccList.mem_size).sum }
  else
    { list := c.list ++ List.replicate (len - c.list.length) default,
      mem_used := c.mem_used }

/-- AccCollectionColumn::spill for AccListColumn. -/
def AccListColumn.spill (c : AccListColumn) (idxs : List Nat) : List (List Scalar) :=
  idxs.map fun i => c.save_raw i

/-- The unspill while loop for AccListColumn, with the same non-advancing
index as the source. -/
def AccListColumn.unspillLoop :
    AccListColumn → Nat → List (List Scalar) → Option (AccListColumn × List (List Scalar))
  | c, idx, [] => if idx < c.num_records then none else some (c, [])
  | c, idx, payload :: rest =>
    if idx < c.num_records then
      AccListColumn.unspillLoop (c.load_raw_step idx payload) idx rest
    else some (c, payload :: rest)

/-- AccCollectionColumn::unspill for AccListColumn. -/
def AccListColumn.unspill (c : AccListColumn) (num_rows : Nat) (r : List (List Scalar)) :
    Option (AccListColumn × List (List Scalar)) :=
  AccListColumn.unspillLoop (c.resize (c.num_records + num_rows)) c.num_records r

/-- AggGenericCollect::partial_update restricted to one group ordinal,
for collect_list; null scalars are silently dropped. -/
def AccListColumn.partial_update (c : AccListColumn) (idx : Nat)
    (args : List (Option Scalar)) : AccListColumn :=
  args.foldl
    (fun acc s => match s with
      | none => acc
      | some v => acc.append_item idx v) c

/-- The memory-accounting invariant the design document states for both
column kinds: the running counter equals the sum of the slots'
mem_size (mem_used() then adds the capacity overhead on both sides). -/
def AccSetColumn.memInv (c : AccSetColumn) : Prop :=
  c.mem_used = (c.set.map AccSet.mem_size).sum

/-- The memory-accounting invariant for AccListColumn. -/
def AccListColumn.memInv (c : AccListColumn) : Prop :=
  c.mem_used = (c.list.map AccList.mem_size).sum

/-! Helper lemmas about getD, set and concatenation. -/

theorem getD_set_self {α} (l : List α) (i : Nat) (a d : α) (h : i < l.length) :
    (l.set i a).getD i d = a := by
  simp [List.getD_eq_getElem?_getD, List.getElem?_set_self, h]

theorem getD_set_ne {α} (l : List α) (i j : Nat) (a d : α) (h : i ≠ j) :
    (l.set j a).getD i d = l.getD i d := by
  simp [List.getD_eq_getElem?_getD, List.getElem?_set_ne (Ne.symm h)]

theorem getD_concat_self {α} (l : List α) (v d : α) : (l ++ [v]).getD l.length d = v := by
  simp [List.getD_eq_getElem?_getD]

theorem getD_append_lt {α} (l : List α) (tail : List α) (i : Nat) (d : α)
    (h : i < l.length) : (l ++ tail).getD i d = l.getD i d := by
  simp [List.getD_eq_getElem?_getD, List.getElem?_append_left h]

theorem getD_replicate_default {α} (n i : Nat) (d : α) :
    (List.replicate n d).getD i d = d := by
  cases Nat.lt_or_ge i n with
  | inl h =>
    simp [List.getD_eq_getElem?_getD, List.getElem?_replicate, h]
  | inr h =>
    have : (List.replicate n d)[i]? = none := by
      simp [List.getElem?_eq_none_iff]
      omega
    simp [List.getD_eq_getElem?_getD, this]

/-! The collect_list claims. -/

theorem AccListColumn.list_append_item_num_records (c : AccListColumn) (idx : Nat) (v : Scalar) :
    (c.append_item idx v).num_records = c.num_records := by
  simp [append_item, num_records]

theorem AccListColumn.list_append_item_slot (c : AccListColumn) (idx : Nat) (v : Scalar)
    (h : idx < c.num_records) :
    ((c.append_item idx v).list.getD idx default).raw
      = (c.list.getD idx default).raw ++ [v] := by
  simp only [append_item]
  rw [getD_set_self _ _ _ _ h]
  rfl

theorem AccListColumn.list_partial_update_slot (inputs : List (Option Scalar))
    (c : AccListColumn) (idx : Nat) (h : idx < c.num_records) :
    ((c.partial_update idx inputs).list.getD idx default).raw
      = (c.list.getD idx default).raw ++ inputs.filterMap id := by
  induction inputs generalizing c with
  | nil => simp [partial_update]
  | cons s rest ih =>
    cases s with
    | none =>
      simpa [partial_update, List.foldl_cons] using ih c h
    | some v =>
      have h1 : idx < (c.append_item idx v).num_records := by
        rwa [list_append_item_num_records]
      have h2 := ih (c.append_item idx v) h1
      rw [list_append_item_slot c idx v h] at h2
      simpa [partial_update, List.foldl_cons, List.append_assoc] using h2

theorem AccListColumn.list_resize_empty (n : Nat) :
    AccListColumn.empty.resize n = ⟨List.replicate n default, 0⟩ := by
  simp [empty, resize]

/-- C2: for every AccList slot and every sequence of values reaching the
slot through partial_update, take_values yields exactly the non-null
values in insertion order, multiplicities preserved. -/
theorem collect_list_take_values (n idx : Nat) (h : idx < n)
    (inputs : List (Option Scalar)) :
    (((AccListColumn.empty.resize n).partial_update idx inputs).take_values idx).1
      = inputs.filterMap id := by
  have hn : idx < (AccListColumn.empty.resize n).num_records := by
    simp [AccListColumn.list_resize_empty, AccListColumn.num_records, h]
  have hslot := AccListColumn.list_partial_update_slot inputs _ idx hn
  have hd : ((AccListColumn.empty.resize n).list.getD idx default) = default := by
    rw [AccListColumn.list_resize_empty]
    exact getD_replicate_default n idx default
  rw [hd] at hslot
  simp only [AccListColumn.take_values, AccList.into_values]
  rw [hslot]
  rfl

/-- Witness for collect_list_take_values at a concrete input. -/
theorem collect_list_take_values_witness :
    0 < 1 ∧
    (((AccListColumn.empty.resize 1).partial_update 0
        [some 1, some 2, none, some 1, some 3]).take_values 0).1
      = [some 1, some 2, none, some 1, some 3].filterMap id :=
  ⟨by decide, collect_list_take_values 1 0 (by decide) [some 1, some 2, none, some 1, some 3]⟩

/-! The collect_set development.  A well-formed AccSet (every state an
AccSet reaches through appends from empty) has its pair references
covering exactly the raw cells in order, and a duplicate-free raw
buffer. -/

/-- Well-formedness of an AccSet built by appends: the set references
each raw cell exactly once, in order, and raw holds no duplicates. -/
def AccSet.wf (a : AccSet) : Prop :=
  a.set.toList = List.range a.list.raw.length ∧ a.list.raw.Nodup

theorem getD_lt {α} (l : List α) (i : Nat) (d : α) (h : i < l.length) : l.getD i d = l[i] := by
  simp [List.getD_eq_getElem?_getD, List.getElem?_eq_getElem h]

/-- The duplicate test of append_raw_inline, over the already-extended
raw buffer, decides membership of the new value in the old buffer. -/
theorem dup_test_extended (raw : List Scalar) (v : Scalar) :
    (((List.range raw.length).any fun pl =>
        (⟨raw ++ [v]⟩ : AccList).ref_raw pl
          = (⟨raw ++ [v]⟩ : AccList).ref_raw raw.length) = true)
      ↔ v ∈ raw := by
  simp only [List.any_eq_true, List.mem_range, decide_eq_true_eq, AccList.ref_raw]
  constructor
  · rintro ⟨i, hi, he⟩
    rw [getD_concat_self, getD_append_lt _ _ _ _ hi, getD_lt _ _ _ hi] at he
    exact he ▸ List.getElem_mem hi
  · intro hv
    obtain ⟨i, hi, he⟩ := List.mem_iff_getElem.mp hv
    refine ⟨i, hi, ?_⟩
    rw [getD_concat_self, getD_append_lt _ _ _ _ hi, getD_lt _ _ _ hi]
    exact he

/-- The duplicate test of append_raw decides membership of the incoming
value in the raw buffer. -/
theorem dup_test_plain (l : AccList) (v : Scalar) :
    (((List.range l.raw.length).any fun pl => l.ref_raw pl = v) = true) ↔ v ∈ l.raw := by
  simp only [List.any_eq_true, List.mem_range, decide_eq_true_eq, AccList.ref_raw]
  constructor
  · rintro ⟨i, hi, he⟩
    rw [getD_lt _ _ _ hi] at he
    exact he ▸ List.getElem_mem hi
  · intro hv
    obtain ⟨i, hi, he⟩ := List.mem_iff_getElem.mp hv
    exact ⟨i, hi, by rw [getD_lt _ _ _ hi]; exact he⟩

/-- Well-formedness of the pushed state shared by the non-duplicate arms
of append_raw_inline and append_raw. -/
theorem AccSet.wf_push (raw : List Scalar) (v : Scalar) (s : List Nat)
    (hsl : s = List.range raw.length) (hn : raw.Nodup) (hv : v ∉ raw) :
    (AccSet.mk ⟨raw ++ [v]⟩ (.Huge (s ++ [raw.length]))).wf := by
  have hr : List.range (raw ++ [v]).length = List.range raw.length ++ [raw.length] := by
    simpa using List.range_succ (n := raw.length)
  constructor
  · show s ++ [raw.length] = List.range (raw ++ [v]).length
    rw [hsl, hr]
  · show (raw ++ [v]).Nodup
    simp [List.nodup_append, hn, hv]

/-- AccSet::append on a well-formed set: a duplicate leaves the state
unchanged, a new value lands at the end of raw; well-formedness is
preserved. -/
theorem AccSet.append_spec (a : AccSet) (v : Scalar) (hw : a.wf) :
    (a.append v).wf ∧
    (a.append v).list.raw
      = (if v ∈ a.list.raw then a.list.raw else a.list.raw ++ [v]) := by
  obtain ⟨hs, hn⟩ := hw
  have ht : (a.list.raw ++ [v]).take a.list.raw.length = a.list.raw := List.take_left _ _
  cases hset : a.set with
  | Small s =>
    have hsl : s = List.range a.list.raw.length := by
      simpa [InternalSet.toList, hset] using hs
    by_cases hv : v ∈ a.list.raw
    · have hcond : (s.any fun pl =>
          (⟨a.list.raw ++ [v]⟩ : AccList).ref_raw pl
            = (⟨a.list.raw ++ [v]⟩ : AccList).ref_raw a.list.raw.length) = true := by
        rw [hsl]
        exact (dup_test_extended a.list.raw v).mpr hv
      have hres : a.append v = a := by
        simp only [AccSet.append, AccSet.append_raw_inline, hset, hcond, if_true]
        rw [ht, ← hset]
      rw [hres]
      exact ⟨⟨hs, hn⟩, by simp [hv]⟩
    · have hcond : (s.any fun pl =>
          (⟨a.list.raw ++ [v]⟩ : AccList).ref_raw pl
            = (⟨a.list.raw ++ [v]⟩ : AccList).ref_raw a.list.raw.length) = false := by
        rw [hsl]
        exact Bool.eq_false_iff.mpr
          (fun hc => hv ((dup_test_extended a.list.raw v).mp hc))
      have hres : a.append v
          = ⟨⟨a.list.raw ++ [v]⟩, .Huge (s ++ [a.list.raw.length])⟩ := by
        simp [AccSet.append, AccSet.append_raw_inline, hset, hcond,
          InternalSet.convert_to_huge_if_needed]
      rw [hres]
      exact ⟨AccSet.wf_push _ _ _ hsl hn hv, by simp [hv]⟩
  | Huge s =>
    have hsl : s = List.range a.list.raw.length := by
      simpa [InternalSet.toList, hset] using hs
    by_cases hv : v ∈ a.list.raw
    · have hcond : (s.any fun pl =>
          (⟨a.list.raw ++ [v]⟩ : AccList).ref_raw pl
            = (⟨a.list.raw ++ [v]⟩ : AccList).ref_raw a.list.raw.length) = true := by
        rw [hsl]
        exact (dup_test_extended a.list.raw v).mpr hv
      have hres : a.append v = a := by
        simp only [AccSet.append, AccSet.append_raw_inline, hset, hcond, if_true]
        rw [ht, ← hset]
      rw [hres]
      exact ⟨⟨hs, hn⟩, by simp [hv]⟩
    · have hcond : (s.any fun pl =>
          (⟨a.list.raw ++ [v]⟩ : AccList).ref_raw pl
            = (⟨a.list.raw ++ [v]⟩ : AccList).ref_raw a.list.raw.length) = false := by
        rw [hsl]
        exact Bool.eq_false_iff.mpr
          (fun hc => hv ((dup_test_extended a.list.raw v).mp hc))
      have hres : a.append v
          = ⟨⟨a.list.raw ++ [v]⟩, .Huge (s ++ [a.list.raw.length])⟩ := by
        simp [AccSet.append, AccSet.append_raw_inline, hset, hcond]
      rw [hres]
      exact ⟨AccSet.wf_push _ _ _ hsl hn hv, by simp [hv]⟩

/-- AccSet::append_raw on a well-formed set behaves like append. -/
theorem AccSet.append_raw_spec (a : AccSet) (v : Scalar) (hw : a.wf) :
    (a.append_raw v).wf ∧
    (a.append_raw v).list.raw
      = (if v ∈ a.list.raw then a.list.raw else a.list.raw ++ [v]) := by
  obtain ⟨hs, hn⟩ := hw
  cases hset : a.set with
  | Small s =>
    have hsl : s = List.range a.list.raw.length := by
      simpa [InternalSet.toList, hset] using hs
    by_cases hv : v ∈ a.list.raw
    · have hcond : (s.any fun pl => a.list.ref_raw pl = v) = true := by
        rw [hsl]; exact (dup_test_plain a.list v).mpr hv
      have hres : a.append_raw v = a := by
        simp [AccSet.append_raw, hset, hcond]
      rw [hres]
      exact ⟨⟨hs, hn⟩, by simp [hv]⟩
    · have hcond : (s.any fun pl => a.list.ref_raw pl = v) = false := by
        rw [hsl]
        exact Bool.eq_false_iff.mpr (fun hc => hv ((dup_test_plain a.list v).mp hc))
      have hres : a.append_raw v
          = ⟨⟨a.list.raw ++ [v]⟩, .Huge (s ++ [a.list.raw.length])⟩ := by
        simp [AccSet.append_raw, hset, hcond, InternalSet.convert_to_huge_if_needed]
      rw [hres]
      exact ⟨AccSet.wf_push _ _ _ hsl hn hv, by simp [hv]⟩
  | Huge s =>
    have hsl : s = List.range a.list.raw.length := by
      simpa [InternalSet.toList, hset] using hs
    by_cases hv : v ∈ a.list.raw
    · have hcond : (s.any fun pl => a.list.ref_raw pl = v) = true := by
        rw [hsl]; exact (dup_test_plain a.list v).mpr hv
      have hres : a.append_raw v = a := by
        simp [AccSet.append_raw, hset, hcond]
      rw [hres]
      exact ⟨⟨hs, hn⟩, by simp [hv]⟩
    · have hcond : (s.any fun pl => a.list.ref_raw pl = v) = false := by
        rw [hsl]
        exact Bool.eq_false_iff.mpr (fun hc => hv ((dup_test_plain a.list v).mp hc))
      have hres : a.append_raw v
          = ⟨⟨a.list.raw ++ [v]⟩, .Huge (s ++ [a.list.raw.length])⟩ := by
        simp [AccSet.append_raw, hset, hcond]
      rw [hres]
      exact ⟨AccSet.wf_push _ _ _ hsl hn hv, by simp [hv]⟩

/-- The first-occurrence deduplication fold that AccSet appends compute
on the raw buffer. -/
def dedupFold (acc : List Scalar) (vs : List Scalar) : List Scalar :=
  vs.foldl (fun l v => if v ∈ l then l else l ++ [v]) acc

theorem dedupFold_nodup (vs : List Scalar) (acc : List Scalar) (h : acc.Nodup) :
    (dedupFold acc vs).Nodup := by
  induction vs generalizing acc with
  | nil => simpa [dedupFold] using h
  | cons v rest ih =>
    by_cases hv : v ∈ acc
    · simpa [dedupFold, hv] using ih acc h
    · have : (acc ++ [v]).Nodup := by simp [List.nodup_append, h, hv]
      simpa [dedupFold, hv] using ih (acc ++ [v]) this

theorem dedupFold_mem (vs : List Scalar) (acc : List Scalar) (x : Scalar) :
    x ∈ dedupFold acc vs ↔ x ∈ acc ∨ x ∈ vs := by
  induction vs generalizing acc with
  | nil => simp [dedupFold]
  | cons v rest ih =>
    by_cases hv : v ∈ acc
    · rw [show dedupFold acc (v :: rest) = dedupFold acc rest by simp [dedupFold, hv]]
      rw [ih acc]
      constructor
      · rintro (h | h)
        · exact Or.inl h
        · exact Or.inr (List.mem_cons_of_mem _ h)
      · rintro (h | h)
        · exact Or.inl h
        · rcases List.mem_cons.mp h with rfl | h
          · exact Or.inl hv
          · exact Or.inr h
    · rw [show dedupFold acc (v :: rest) = dedupFold (acc ++ [v]) rest by
        simp [dedupFold, hv]]
      rw [ih (acc ++ [v])]
      simp only [List.mem_append, List.mem_singleton, List.mem_cons]
      tauto

/-- A fold of AccSet::append from a well-formed state computes the
first-occurrence dedup of the appended values on the raw buffer. -/
theorem AccSet.foldl_append_spec (vs : List Scalar) (a : AccSet) (hw : a.wf) :
    (vs.foldl AccSet.append a).wf ∧
    (vs.foldl AccSet.append a).list.raw = dedupFold a.list.raw vs := by
  induction vs generalizing a with
  | nil => exact ⟨hw, by simp [dedupFold]⟩
  | cons v rest ih =>
    obtain ⟨hw1, hr1⟩ := AccSet.append_spec a v hw
    obtain ⟨hw2, hr2⟩ := ih (a.append v) hw1
    refine ⟨by simpa [List.foldl_cons] using hw2, ?_⟩
    rw [List.foldl_cons, hr2, hr1]
    by_cases hv : v ∈ a.list.raw <;> simp [dedupFold, hv]

/-! Column-level slot lemmas for AccSetColumn. -/

theorem AccSetColumn.append_item_num_records (c : AccSetColumn) (idx : Nat) (v : Scalar) :
    (c.append_item idx v).num_records = c.num_records := by
  simp [append_item, num_records]

theorem AccSetColumn.append_item_slot (c : AccSetColumn) (idx : Nat) (v : Scalar)
    (h : idx < c.num_records) :
    (c.append_item idx v).set.getD idx default = (c.set.getD idx default).append v := by
  simp only [append_item]
  exact getD_set_self _ _ _ _ h

theorem AccSetColumn.partial_update_slot (inputs : List (Option Scalar))
    (c : AccSetColumn) (idx : Nat) (h : idx < c.num_records) :
    (c.partial_update idx inputs).set.getD idx default
      = (inputs.filterMap id).foldl AccSet.append (c.set.getD idx default) := by
  induction inputs generalizing c with
  | nil => simp [partial_update]
  | cons s rest ih =>
    cases s with
    | none => simpa [partial_update, List.foldl_cons] using ih c h
    | some v =>
      have h1 : idx < (c.append_item idx v).num_records := by
        rwa [append_item_num_records]
      have h2 := ih (c.append_item idx v) h1
      rw [append_item_slot c idx v h] at h2
      simpa [partial_update, List.foldl_cons] using h2

theorem AccSetColumn.resize_empty (n : Nat) :
    AccSetColumn.empty.resize n = ⟨List.replicate n default, 0⟩ := by
  simp [empty, resize]

/-- C1: for every AccSet slot and every sequence of values reaching the
slot through partial_update (which drops null scalars), take_values
yields exactly the distinct non-null values — the result is
duplicate-free, holds a value iff it occurs non-null in the input, and
its length is the number of distinct non-null values. -/
theorem collect_set_take_values (n idx : Nat) (h : idx < n)
    (inputs : List (Option Scalar)) :
    ((((AccSetColumn.empty.resize n).partial_update idx inputs).take_values idx).1.Nodup)
    ∧ (∀ v : Scalar,
        v ∈ (((AccSetColumn.empty.resize n).partial_update idx inputs).take_values idx).1
          ↔ v ∈ inputs.filterMap id)
    ∧ (((AccSetColumn.empty.resize n).partial_update idx inputs).take_values idx).1.length
        = (inputs.filterMap id).toFinset.card := by
  have hn : idx < (AccSetColumn.empty.resize n).num_records := by
    simp [AccSetColumn.resize_empty, AccSetColumn.num_records, h]
  have hslot := AccSetColumn.partial_update_slot inputs _ idx hn
  have hd : ((AccSetColumn.empty.resize n).set.getD idx default) = default := by
    rw [AccSetColumn.resize_empty]
    exact getD_replicate_default n idx default
  rw [hd] at hslot
  have hwf : (default : AccSet).wf := ⟨rfl, List.nodup_nil⟩
  obtain ⟨hw, hraw⟩ := AccSet.foldl_append_spec (inputs.filterMap id) default hwf
  have hvals : (((AccSetColumn.empty.resize n).partial_update idx inputs).take_values idx).1
      = dedupFold [] (inputs.filterMap id) := by
    simp only [AccSetColumn.take_values, AccSet.into_values, AccList.into_values]
    rw [hslot, hraw]
    rfl
  have hnodup : (dedupFold [] (inputs.filterMap id)).Nodup :=
    dedupFold_nodup _ [] List.nodup_nil
  have hmem : ∀ v : Scalar,
      v ∈ dedupFold [] (inputs.filterMap id) ↔ v ∈ inputs.filterMap id := by
    intro v
    rw [dedupFold_mem]
    simp
  refine ⟨by rw [hvals]; exact hnodup, fun v => by rw [hvals]; exact hmem v, ?_⟩
  rw [hvals]
  have hfin : (dedupFold [] (inputs.filterMap id)).toFinset
      = (inputs.filterMap id).toFinset := by
    ext x
    simp only [List.mem_toFinset]
    exact hmem x
  rw [← List.toFinset_card_of_nodup hnodup, hfin]

/-- Witness for collect_set_take_values at a concrete input. -/
theorem collect_set_take_values_witness :
    0 < 1 ∧
    (((((AccSetColumn.empty.resize 1).partial_update 0
          [some 1, some 2, none, some 1, some 3]).take_values 0).1.Nodup)
     ∧ (∀ v : Scalar,
          v ∈ ((((AccSetColumn.empty).resize 1).partial_update 0
              [some 1, some 2, none, some 1, some 3]).take_values 0).1
            ↔ v ∈ [some 1, some 2, none, some 1, some 3].filterMap id)
     ∧ ((((AccSetColumn.empty.resize 1).partial_update 0
          [some 1, some 2, none, some 1, some 3]).take_values 0).1.length
        = ([some 1, some 2, none, some 1, some 3].filterMap id).toFinset.card)) :=
  ⟨by decide,
   collect_set_take_values 1 0 (by decide) [some 1, some 2, none, some 1, some 3]⟩

/-! Claims C6 (adaptive-set transition), C3 (memory accounting) and C4
(spill round trip). -/

/-- C6: the source's convert_to_huge_if_needed converts whenever the set
is Small, with no size check, so the very first insertion into an empty
AccSet already yields the Huge variant; the internal set is never Small
with one to four elements as the specification's threshold-4 transition
requires. -/
theorem internal_set_huge_after_first_insert :
    (((default : AccSet).append 0).set.isHuge = true)
    ∧ (((default : AccSet).append 0).set.len = 1)
    ∧ (∀ s : InternalSet, s.convert_to_huge_if_needed.isSmall = false) := by
  refine ⟨by decide, by decide, ?_⟩
  intro s
  cases s <;> rfl

/-- A one-slot AccSetColumn holding the single value 5. -/
def c3Source : AccSetColumn := (AccSetColumn.empty.resize 1).append_item 0 5

/-- A fresh one-slot AccSetColumn after loading the saved record of
c3Source into slot 0. -/
def c3Loaded : AccSetColumn :=
  (AccSetColumn.empty.resize 1).load_raw_step 0 (c3Source.save_raw 0)

/-- C3: AccSetColumn::load_raw replays the decoded scalars through
append_item, whose deltas already maintain mem_used, and then adds the
rebuilt slot's mem_size a second time; after a save_raw/load_raw round
trip of a one-value slot the column reports twice the slot's size, and
mem_used() no longer equals the slot-size sum plus the capacity
overhead (it does before the load). -/
theorem accset_load_raw_overcounts_mem_used :
    (c3Source.memUsed
        = (c3Source.set.map AccSet.mem_size).sum + c3Source.set.length * sizeOfAccSet)
    ∧ ((AccSetColumn.empty.resize 1).load_raw 0 (c3Source.spill [0])
        = some (c3Loaded, []))
    ∧ (c3Loaded.memUsed
        ≠ (c3Loaded.set.map AccSet.mem_size).sum + c3Loaded.set.length * sizeOfAccSet) := by
  decide

theorem AccSetColumn.foldl_append_item_num_records (payload : List Scalar)
    (c : AccSetColumn) (idx : Nat) :
    (payload.foldl (fun acc v => acc.append_item idx v) c).num_records = c.num_records := by
  induction payload generalizing c with
  | nil => rfl
  | cons v rest ih => rw [List.foldl_cons, ih, append_item_num_records]

theorem AccSetColumn.load_raw_step_num_records (c : AccSetColumn) (idx : Nat)
    (payload : List Scalar) :
    (c.load_raw_step idx payload).num_records = c.num_records := by
  have h := AccSetColumn.foldl_append_item_num_records payload
    ⟨c.set.set idx default, c.mem_used - (c.set.getD idx default).mem_size⟩ idx
  simp only [load_raw_step, num_records] at h ⊢
  simpa using h

theorem AccSetColumn.resize_num_records (c : AccSetColumn) (len : Nat) :
    (c.resize len).num_records = len := by
  simp only [resize, num_records]
  split
  · rename_i h2
    simp only [List.length_take]
    omega
  · rename_i h2
    simp only [List.length_append, List.length_replicate]
    omega

theorem AccSetColumn.unspillLoop_none (r : List (List Scalar)) :
    ∀ (c : AccSetColumn) (idx : Nat), idx < c.num_records →
      AccSetColumn.unspillLoop c idx r = none := by
  induction r with
  | nil =>
    intro c idx h
    simp [unspillLoop, h]
  | cons payload rest ih =>
    intro c idx h
    have h2 : idx < (c.load_raw_step idx payload).num_records := by
      rwa [load_raw_step_num_records]
    simp [unspillLoop, h, ih _ _ h2]

theorem AccListColumn.list_load_raw_step_num_records (c : AccListColumn) (idx : Nat)
    (payload : List Scalar) :
    (c.load_raw_step idx payload).num_records = c.num_records := by
  simp [load_raw_step, num_records]

theorem AccListColumn.list_resize_num_records (c : AccListColumn) (len : Nat) :
    (c.resize len).num_records = len := by
  simp only [resize, num_records]
  split
  · rename_i h2
    simp only [List.length_take]
    omega
  · rename_i h2
    simp only [List.length_append, List.length_replicate]
    omega

theorem AccListColumn.list_unspillLoop_none (r : List (List Scalar)) :
    ∀ (c : AccListColumn) (idx : Nat), idx < c.num_records →
      AccListColumn.unspillLoop c idx r = none := by
  induction r with
  | nil =>
    intro c idx h
    simp [unspillLoop, h]
  | cons payload rest ih =>
    intro c idx h
    have h2 : idx < (c.load_raw_step idx payload).num_records := by
      rwa [list_load_raw_step_num_records]
    simp [unspillLoop, h, ih _ _ h2]

/-- C4: the source's unspill loop never advances its index variable, so
unspilling any positive number of rows reloads the same slot until the
compressed reader is exhausted and then fails with a read error; the
spill-then-unspill round trip of the claim cannot succeed on either
column kind. -/
theorem unspill_always_fails (nm : Nat) (r : List (List Scalar)) :
    (∀ c : AccSetColumn, c.unspill (nm + 1) r = none)
    ∧ (∀ c : AccListColumn, c.unspill (nm + 1) r = none) := by
  constructor
  · intro c
    apply AccSetColumn.unspillLoop_none
    rw [AccSetColumn.resize_num_records]
    omega
  · intro c
    apply AccListColumn.list_unspillLoop_none
    rw [AccListColumn.list_resize_num_records]
    omega

/-! Claim C5: merge_items.  AccList::merge drains the other slot fully;
AccSet::merge drains only the other slot's set index and leaves its raw
buffer behind. -/

theorem sum_map_set {α} (f : α → Nat) (l : List α) (i : Nat) (x d : α)
    (h : i < l.length) :
    ((l.set i x).map f).sum + f (l.getD i d) = (l.map f).sum + f x := by
  induction l generalizing i with
  | nil => simp at h
  | cons a t ih =>
    cases i with
    | zero =>
      simp only [List.set, List.map_cons, List.sum_cons, List.getD_cons_zero]
      omega
    | succ j =>
      have hj : j < t.length := by simpa using h
      have hrec := ih j hj
      simp only [List.set, List.map_cons, List.sum_cons, List.getD_cons_succ]
      omega

theorem getD_map_le_sum {α} (f : α → Nat) (l : List α) (i : Nat) (d : α)
    (h : i < l.length) :
    f (l.getD i d) ≤ (l.map f).sum := by
  rw [getD_lt _ _ _ h]
  exact List.single_le_sum (fun x _ => Nat.zero_le x) _
    (List.mem_map_of_mem f (List.getElem_mem h))

theorem foldl_range_ref_raw {β : Type} (g : β → Scalar → β) (l : AccList) (b : β) :
    (List.range l.raw.length).foldl (fun acc pl => g acc (l.ref_raw pl)) b
      = l.raw.foldl g b := by
  have hm : (List.range l.raw.length).map (fun pl => l.ref_raw pl) = l.raw := by
    apply List.ext_getElem
    · simp
    · intro i h1 h2
      simp only [List.getElem_map, List.getElem_range]
      simp [AccList.ref_raw, List.getD_eq_getElem?_getD, List.getElem?_eq_getElem h2]
  calc (List.range l.raw.length).foldl (fun acc pl => g acc (l.ref_raw pl)) b
      = ((List.range l.raw.length).map (fun pl => l.ref_raw pl)).foldl g b :=
        (List.foldl_map _ _ _ _).symm
    _ = l.raw.foldl g b := by rw [hm]

/-- A fold of AccSet::append_raw from a well-formed state computes the
first-occurrence dedup of the incoming values on the raw buffer. -/
theorem AccSet.foldl_append_raw_spec (vs : List Scalar) (a : AccSet) (hw : a.wf) :
    (vs.foldl AccSet.append_raw a).wf ∧
    (vs.foldl AccSet.append_raw a).list.raw = dedupFold a.list.raw vs := by
  induction vs generalizing a with
  | nil => exact ⟨hw, by simp [dedupFold]⟩
  | cons v rest ih =>
    obtain ⟨hw1, hr1⟩ := AccSet.append_raw_spec a v hw
    obtain ⟨hw2, hr2⟩ := ih (a.append_raw v) hw1
    refine ⟨by simpa [List.foldl_cons] using hw2, ?_⟩
    rw [List.foldl_cons, hr2, hr1]
    by_cases hv : v ∈ a.list.raw <;> simp [dedupFold, hv]

/-- AccSet::merge on well-formed slots: the drained slot's set index is
empty (its raw list survives), and the merged slot's raw buffer is
duplicate-free and holds exactly the union of the two value sets. -/
theorem AccSet.merge_spec (x y : AccSet) (hx : x.wf) (hy : y.wf) :
    ((AccSet.merge x y).2.set.toList = [])
    ∧ (AccSet.merge x y).1.list.raw.Nodup
    ∧ (∀ v : Scalar,
        v ∈ (AccSet.merge x y).1.list.raw ↔ (v ∈ x.list.raw ∨ v ∈ y.list.raw)) := by
  have key : ∀ (b d : AccSet), b.wf → d.wf →
      ((d.set.toList.foldl (fun acc pl => acc.append_raw (d.list.ref_raw pl)) b).list.raw.Nodup
       ∧ ∀ v : Scalar,
          v ∈ (d.set.toList.foldl (fun acc pl => acc.append_raw (d.list.ref_raw pl)) b).list.raw
            ↔ (v ∈ b.list.raw ∨ v ∈ d.list.raw)) := by
    intro b d hb hd
    rw [hd.1, foldl_range_ref_raw AccSet.append_raw d.list b]
    obtain ⟨hw, hraw⟩ := AccSet.foldl_append_raw_spec d.list.raw b hb
    refine ⟨hw.2, fun v => ?_⟩
    rw [hraw, dedupFold_mem]
  by_cases hsw : x.set.len < y.set.len
  · have hm : AccSet.merge x y
        = (x.set.toList.foldl (fun acc pl => acc.append_raw (x.list.ref_raw pl)) y,
           { list := x.list, set := .Small [] }) := by
      simp [AccSet.merge, hsw]
    obtain ⟨hnd, hmem⟩ := key y x hy hx
    rw [hm]
    refine ⟨rfl, hnd, fun v => ?_⟩
    rw [hmem v]
    tauto
  · have hm : AccSet.merge x y
        = (y.set.toList.foldl (fun acc pl => acc.append_raw (y.list.ref_raw pl)) x,
           { list := y.list, set := .Small [] }) := by
      simp [AccSet.merge, hsw]
    obtain ⟨hnd, hmem⟩ := key x y hx hy
    rw [hm]
    exact ⟨rfl, hnd, fun v => hmem v⟩

instance (c : AccListColumn) : Decidable c.memInv :=
  inferInstanceAs (Decidable (_ = _))

instance (c : AccSetColumn) : Decidable c.memInv :=
  inferInstanceAs (Decidable (_ = _))

instance (a : AccSet) : Decidable a.wf :=
  inferInstanceAs (Decidable (_ ∧ _))

/-- The self column of the C5 counterexample: one slot holding value 0. -/
def c5Self : AccSetColumn := (AccSetColumn.empty.resize 1).append_item 0 0

/-- The other column of the C5 counterexample: one slot holding value 1. -/
def c5Other : AccSetColumn := (AccSetColumn.empty.resize 1).append_item 0 1

/-- C5 counterexample: after AccSetColumn::merge_items the other slot is
NOT drained — its raw buffer survives, so take_values on it still yields
the old value, its mem_size is not that of an empty slot, and the other
column's mem_used counter no longer matches its slots. -/
theorem accset_merge_items_other_not_drained :
    (((c5Self.merge_items 0 c5Other 0).2.take_values 0).1 ≠ [])
    ∧ (((c5Self.merge_items 0 c5Other 0).2.set.getD 0 default).mem_size ≠ 0)
    ∧ ((c5Self.merge_items 0 c5Other 0).2.mem_used
        ≠ (((c5Self.merge_items 0 c5Other 0).2.set.map AccSet.mem_size).sum)) := by
  decide

/-- C5 amended: merge_items merges slot idx of self with slot other_idx
of the other column.  For AccListColumn the other slot is fully drained
(take_values yields [], its mem_size is zero), the merged slot holds
self's values followed by other's, and both mem_used counters still
match their slots.  For AccSetColumn only the other slot's set index is
drained (its raw buffer is retained), while the merged slot holds
exactly the union of the two slots' distinct values, duplicate-free. -/
theorem merge_items_amended :
    (∀ (c o : AccListColumn) (idx oidx : Nat),
      idx < c.num_records → oidx < o.num_records → c.memInv → o.memInv →
      ((((c.merge_items idx o oidx).2.take_values oidx).1 = [])
       ∧ (((c.merge_items idx o oidx).2.list.getD oidx default).mem_size = 0)
       ∧ (((c.merge_items idx o oidx).1.list.getD idx default).raw
           = (c.list.getD idx default).raw ++ (o.list.getD oidx default).raw)
       ∧ (c.merge_items idx o oidx).1.memInv
       ∧ (c.merge_items idx o oidx).2.memInv))
  ∧ (∀ (c o : AccSetColumn) (idx oidx : Nat),
      idx < c.num_records → oidx < o.num_records →
      (c.set.getD idx default).wf → (o.set.getD oidx default).wf →
      ((((c.merge_items idx o oidx).2.set.getD oidx default).set.toList = [])
       ∧ (((c.merge_items idx o oidx).1.set.getD idx default).list.raw.Nodup)
       ∧ (∀ v : Scalar,
            v ∈ ((c.merge_items idx o oidx).1.set.getD idx default).list.raw
              ↔ (v ∈ (c.set.getD idx default).list.raw
                  ∨ v ∈ (o.set.getD oidx default).list.raw)))) := by
  constructor
  · intro c o idx oidx hidx hoidx hc ho
    have hidx2 : idx < c.list.length := hidx
    have hoidx2 : oidx < o.list.length := hoidx
    refine ⟨?_, ?_, ?_, ?_, ?_⟩
    · simp only [AccListColumn.merge_items, AccList.merge, AccListColumn.take_values]
      rw [getD_set_self _ _ _ _ hoidx2]
      rfl
    · simp only [AccListColumn.merge_items, AccList.merge]
      rw [getD_set_self _ _ _ _ hoidx2]
      rfl
    · simp only [AccListColumn.merge_items, AccList.merge]
      rw [getD_set_self _ _ _ _ hidx2]
    · have hs := sum_map_set AccList.mem_size c.list idx
        ⟨(c.list.getD idx default).raw ++ (o.list.getD oidx default).raw⟩ default hidx2
      simp only [AccListColumn.memInv] at hc ⊢
      simp only [AccListColumn.merge_items, AccList.merge]
      simp only [AccList.mem_size, List.length_append] at hs ⊢
      omega
    · have hs := sum_map_set AccList.mem_size o.list oidx ⟨[]⟩ default hoidx2
      have hle := getD_map_le_sum AccList.mem_size o.list oidx default hoidx2
      simp only [AccListColumn.memInv] at ho ⊢
      simp only [AccListColumn.merge_items, AccList.merge]
      simp only [AccList.mem_size, List.length_append, List.length_nil] at hs hle ⊢
      omega
  · intro c o idx oidx hidx hoidx hwc hwo
    have hidx2 : idx < c.set.length := hidx
    have hoidx2 : oidx < o.set.length := hoidx
    obtain ⟨h1, h2, h3⟩ :=
      AccSet.merge_spec (c.set.getD idx default) (o.set.getD oidx default) hwc hwo
    refine ⟨?_, ?_, ?_⟩
    · simp only [AccSetColumn.merge_items]
      rw [getD_set_self _ _ _ _ hoidx2]
      exact h1
    · simp only [AccSetColumn.merge_items]
      rw [getD_set_self _ _ _ _ hidx2]
      exact h2
    · intro v
      simp only [AccSetColumn.merge_items]
      rw [getD_set_self _ _ _ _ hidx2]
      exact h3 v

/-- The self column of the amended-C5 witness, list flavour. -/
def c5lSelf : AccListColumn := (AccListColumn.empty.resize 1).append_item 0 0

/-- The other column of the amended-C5 witness, list flavour. -/
def c5lOther : AccListColumn := (AccListColumn.empty.resize 1).append_item 0 1

/-- Witness for merge_items_amended at concrete one-slot columns. -/
theorem merge_items_amended_witness :
    (((((c5lSelf.merge_items 0 c5lOther 0).2.take_values 0).1 = [])
      ∧ ((((c5lSelf.merge_items 0 c5lOther 0).2.list.getD 0 default).mem_size = 0))
      ∧ (((c5lSelf.merge_items 0 c5lOther 0).1.list.getD 0 default).raw
          = (c5lSelf.list.getD 0 default).raw ++ (c5lOther.list.getD 0 default).raw)
      ∧ (c5lSelf.merge_items 0 c5lOther 0).1.memInv
      ∧ (c5lSelf.merge_items 0 c5lOther 0).2.memInv)
    ∧ ((((c5Self.merge_items 0 c5Other 0).2.set.getD 0 default).set.toList = [])
       ∧ (((c5Self.merge_items 0 c5Other 0).1.set.getD 0 default).list.raw.Nodup)
       ∧ (∀ v : Scalar,
            v ∈ ((c5Self.merge_items 0 c5Other 0).1.set.getD 0 default).list.raw
              ↔ (v ∈ (c5Self.set.getD 0 default).list.raw
                  ∨ v ∈ (c5Other.set.getD 0 default).list.raw)))) :=
  ⟨merge_items_amended.1 c5lSelf c5lOther 0 0 (by decide) (by decide) (by decide) (by decide),
   merge_items_amended.2 c5Self c5Other 0 0 (by decide) (by decide) (by decide) (by decide)⟩

/-! The broadcast semi/anti/existence joiner of semi_join.rs.

Modelling conventions for the joiner:

* Keys are modelled as a single Option-valued column; a multi-column key
  collapses to its tuple, the union null mask of the source becomes the
  None case, and make_eq_comparator_multiple_arrays (external) becomes
  equality of non-null keys, with SQL semantics (null matches nothing).
* Modelled from the spec: JoinHashMap and join_create_hashes live in
  join_hash_map.rs, which is not part of the sources under scrutiny.  Per
  the design document the map exposes entry_indices(hash), an optional
  iterator of candidate build-row indices, over an immutable data batch
  of numRows rows, and both sides hash their keys with the same function;
  we model the map as a structure carrying those fields, with an
  arbitrary entries function (None becomes the empty list) and an
  arbitrary hash function.
* The async output sender is modelled by returning the list of batches a
  call emits; a batch is its selected row indices plus the optional
  existence column.
* bitvec bitmaps become lists of Bool updated with List.set; the
  HashSet of skippable i32 hash codes becomes a duplicate-free list. -/

/-- enum ProbeSide of bhj. -/
inductive ProbeSide where
  | L
  | R
deriving DecidableEq

/-- enum SemiMode of semi_join.rs. -/
inductive SemiMode where
  | Semi
  | Anti
  | Existence
deriving DecidableEq

/-- struct JoinerParams of semi_join.rs: the compile-time triple of every
variant. -/
structure JoinerParams where
  probe_side : ProbeSide
  probe_is_join_side : Bool
  mode : SemiMode
deriving DecidableEq

def LEFT_PROBED_LEFT_SEMI : JoinerParams := ⟨.L, true, .Semi⟩

def LEFT_PROBED_LEFT_ANTI : JoinerParams := ⟨.L, true, .Anti⟩

def LEFT_PROBED_RIGHT_SEMI : JoinerParams := ⟨.L, false, .Semi⟩

def LEFT_PROBED_RIGHT_ANTI : JoinerParams := ⟨.L, false, .Anti⟩

def LEFT_PROBED_EXISTENCE : JoinerParams := ⟨.L, true, .Existence⟩

def RIGHT_PROBED_LEFT_SEMI : JoinerParams := ⟨.R, false, .Semi⟩

def RIGHT_PROBED_LEFT_ANTI : JoinerParams := ⟨.R, false, .Anti⟩

def RIGHT_PROBED_RIGHT_SEMI : JoinerParams := ⟨.R, true, .Semi⟩

def RIGHT_PROBED_RIGHT_ANTI : JoinerParams := ⟨.R, true, .Anti⟩

def RIGHT_PROBED_EXISTENCE : JoinerParams := ⟨.R, false, .Existence⟩

/-- The ten instantiated joiner variants of semi_join.rs. -/
def allJoinerVariants : List JoinerParams :=
  [LEFT_PROBED_LEFT_SEMI, LEFT_PROBED_LEFT_ANTI, LEFT_PROBED_RIGHT_SEMI,
   LEFT_PROBED_RIGHT_ANTI, LEFT_PROBED_EXISTENCE, RIGHT_PROBED_LEFT_SEMI,
   RIGHT_PROBED_LEFT_ANTI, RIGHT_PROBED_RIGHT_SEMI, RIGHT_PROBED_RIGHT_ANTI,
   RIGHT_PROBED_EXISTENCE]

/-- Modelled from the spec: the external build-side hash map
(join_hash_map.rs is outside the given sources).  data_batch().num_rows()
is numRows, key_columns() collapses to buildKeys, entry_indices(h) is
entries h (the None case is the empty list), and hashOf is the shared
hash function that join_create_hashes applies to a probe key. -/
structure JoinHashMap where
  numRows : Nat
  buildKeys : List (Option Nat)
  hashOf : Nat → Nat
  entries : Nat → List Nat

/-- The SQL equi-join comparator built by
make_eq_comparator_multiple_arrays: true only when both keys are non-null
and equal. -/
def eqKeys : Option Nat → Option Nat → Bool
  | some a, some b => a == b
  | _, _ => false

/-- The mutable probing state of struct SemiJoiner: the build-side
matched bitmap and the skippable hash codes. -/
structure SemiJoiner where
  map_joined : List Bool
  hash_skippable : List Nat
deriving DecidableEq

/-- SemiJoiner::new: an all-zero bitmap over the build rows and an empty
skippable set. -/
def SemiJoiner.new (map : JoinHashMap) : SemiJoiner :=
  ⟨List.replicate map.numRows false, []⟩

/-- HashSet::insert on the modelled skippable set. -/
def insertHash (h : Nat) (s : List Nat) : List Nat :=
  if h ∈ s then s else s ++ [h]

/-- The body of the inner candidate loop of SemiJoiner::join, folded over
the entry indices: state is (probed_joined, map_joined, maybe_joined).
When the map side is the join side an already-joined candidate is
skipped before maybe_joined is set. -/
def entryStep (P : JoinerParams) (map : JoinHashMap) (probeKeys : List (Option Nat))
    (rowIdx : Nat) (st : List Bool × List Bool × Bool) (j : Nat) :
    List Bool × List Bool × Bool :=
  if !P.probe_is_join_side && st.2.1.getD j false then st
  else
    let matched := eqKeys (probeKeys.getD rowIdx none) (map.buildKeys.getD j none)
    ((if matched && P.probe_is_join_side then st.1.set rowIdx true else st.1),
     (if matched && !P.probe_is_join_side then st.2.1.set j true else st.2.1),
     true)

/-- One iteration of the probe-row loop of SemiJoiner::join: skip null
keys, skip skippable hashes when the map side is the join side, fold the
candidate entries, and mark the hash skippable when no candidate was
examined. -/
def processRow (P : JoinerParams) (map : JoinHashMap) (probeKeys : List (Option Nat))
    (st : List Bool × SemiJoiner) (rowIdx : Nat) : List Bool × SemiJoiner :=
  match probeKeys.getD rowIdx none with
  | none => st
  | some k =>
    let h := map.hashOf k
    if !P.probe_is_join_side && st.2.hash_skippable.contains h then st
    else
      let r := (map.entries h).foldl (entryStep P map probeKeys rowIdx)
        (st.1, st.2.map_joined, false)
      let sk := if !P.probe_is_join_side && !r.2.2 then insertHash h st.2.hash_skippable
        else st.2.hash_skippable
      (r.1, ⟨r.2.1, sk⟩)

/-- One batch emitted through the output sender: the selected row
indices of the projected side, and the appended existence column when
the mode is Existence. -/
structure OutBatch where
  indices : List Nat
  existsCol : Option (List Bool)
deriving DecidableEq

/-- The emission filter of SemiJoiner: Semi keeps joined rows, Anti
keeps unjoined rows ((mode == Semi) xor not joined in the source). -/
def emitIndices (mode : SemiMode) (joined : List Bool) : List Nat :=
  (List.range joined.length).filter fun i =>
    xor (mode == SemiMode.Semi) (!(joined.getD i false))

/-- SemiJoiner::join over one probe batch: run the probe loop over every
row, then, when the probe side is the join side, project and send one
batch (Semi and Anti select by the probed_joined bitmap, Existence sends
every row plus the bitmap as a column); otherwise send nothing. -/
def joinBatch (P : JoinerParams) (map : JoinHashMap) (probeKeys : List (Option Nat))
    (J : SemiJoiner) : SemiJoiner × List OutBatch :=
  let n := probeKeys.length
  let r := (List.range n).foldl (processRow P map probeKeys) (List.replicate n false, J)
  if P.probe_is_join_side then
    match P.mode with
    | .Semi => (r.2, [⟨emitIndices P.mode r.1, none⟩])
    | .Anti => (r.2, [⟨emitIndices P.mode r.1, none⟩])
    | .Existence => (r.2, [⟨List.range r.1.length, some r.1⟩])
  else (r.2, [])

/-- SemiJoiner::finish: when the map side is the join side, project the
build batch and send one batch selected by map_joined (or all build rows
plus the bitmap for Existence); otherwise send nothing. -/
def SemiJoiner.finish (P : JoinerParams) (J : SemiJoiner) : List OutBatch :=
  if !P.probe_is_join_side then
    match P.mode with
    | .Semi => [⟨emitIndices P.mode J.map_joined, none⟩]
    | .Anti => [⟨emitIndices P.mode J.map_joined, none⟩]
    | .Existence => [⟨List.range J.map_joined.length, some J.map_joined⟩]
  else []

/-- SemiJoiner::can_early_stop: true only when the map side is the join
side and every build row is joined. -/
def SemiJoiner.can_early_stop (P : JoinerParams) (J : SemiJoiner) : Bool :=
  !P.probe_is_join_side && J.map_joined.all (fun b => b)

/-- A sequence of join(batch) calls starting from a fresh joiner,
keeping the final probing state. -/
def runJoiner (P : JoinerParams) (map : JoinHashMap)
    (batches : List (List (Option Nat))) : SemiJoiner :=
  batches.foldl (fun J b => (joinBatch P map b J).1) (SemiJoiner.new map)

/-- A concrete one-row build map: key 5 in row 0, identity hash. -/
def exMap : JoinHashMap :=
  { numRows := 1, buildKeys := [some 5], hashOf := fun k => k,
    entries := fun h => if h = 5 then [0] else [] }

/-- C8 counterexample: among the ten instantiated variants,
RIGHT_PROBED_EXISTENCE is an Existence variant whose probe side is NOT
the join side, and its finish() emits one batch from the build side. -/
theorem existence_variant_on_build_side :
    (RIGHT_PROBED_EXISTENCE.mode = SemiMode.Existence)
    ∧ (RIGHT_PROBED_EXISTENCE.probe_is_join_side = false)
    ∧ (RIGHT_PROBED_EXISTENCE ∈ allJoinerVariants)
    ∧ ((SemiJoiner.finish RIGHT_PROBED_EXISTENCE (SemiJoiner.new exMap)).length = 1) := by
  refine ⟨rfl, rfl, ?_, rfl⟩
  decide

/-- C8 amended: exactly two of the ten variants run in Existence mode —
the left-probed one with the probe side as the join side, and the
right-probed one with the build (map) side as the join side; the latter
emits its batch (build rows plus the existence column) at finish(),
while the former emits per probe batch and sends nothing at finish(). -/
theorem existence_variants_amended :
    (allJoinerVariants.filter (fun p => p.mode == SemiMode.Existence)
      = [LEFT_PROBED_EXISTENCE, RIGHT_PROBED_EXISTENCE])
    ∧ (LEFT_PROBED_EXISTENCE.probe_is_join_side = true)
    ∧ (RIGHT_PROBED_EXISTENCE.probe_is_join_side = false)
    ∧ ((SemiJoiner.finish LEFT_PROBED_EXISTENCE (SemiJoiner.new exMap)).length = 0)
    ∧ ((SemiJoiner.finish RIGHT_PROBED_EXISTENCE (SemiJoiner.new exMap)).length = 1) := by
  refine ⟨?_, rfl, rfl, rfl, rfl⟩
  decide

/-- C10: join(batch) sends exactly one output batch when the probe side
is the join side (also with zero selected rows) and none otherwise;
finish() sends the complementary count. -/
theorem join_finish_emission_counts (P : JoinerParams) (map : JoinHashMap)
    (probeKeys : List (Option Nat)) (J J2 : SemiJoiner) :
    ((joinBatch P map probeKeys J).2.length = if P.probe_is_join_side then 1 else 0)
    ∧ ((SemiJoiner.finish P J2).length = if P.probe_is_join_side then 0 else 1) := by
  obtain ⟨side, b, m⟩ := P
  cases b <;> cases m <;> exact ⟨rfl, rfl⟩

/-! State lemmas for the probe loop. -/

theorem processRow_mode_irrelevant (side : ProbeSide) (b : Bool) (m1 m2 : SemiMode)
    (map : JoinHashMap) (probeKeys : List (Option Nat)) :
    processRow ⟨side, b, m1⟩ map probeKeys = processRow ⟨side, b, m2⟩ map probeKeys := rfl

theorem joinBatch_state (P : JoinerParams) (map : JoinHashMap)
    (probeKeys : List (Option Nat)) (J : SemiJoiner) :
    (joinBatch P map probeKeys J).1
      = ((List.range probeKeys.length).foldl (processRow P map probeKeys)
          (List.replicate probeKeys.length false, J)).2 := by
  obtain ⟨side, b, m⟩ := P
  cases b <;> cases m <;> rfl

theorem entryStep_lengths (P : JoinerParams) (map : JoinHashMap)
    (probeKeys : List (Option Nat)) (rowIdx : Nat)
    (st : List Bool × List Bool × Bool) (j : Nat) :
    ((entryStep P map probeKeys rowIdx st j).1.length = st.1.length)
    ∧ ((entryStep P map probeKeys rowIdx st j).2.1.length = st.2.1.length) := by
  simp only [entryStep]
  split
  · exact ⟨rfl, rfl⟩
  · constructor <;> (dsimp only; split <;> simp)

theorem foldl_entryStep_lengths (es : List Nat) (P : JoinerParams) (map : JoinHashMap)
    (probeKeys : List (Option Nat)) (rowIdx : Nat) (st : List Bool × List Bool × Bool) :
    ((es.foldl (entryStep P map probeKeys rowIdx) st).1.length = st.1.length)
    ∧ ((es.foldl (entryStep P map probeKeys rowIdx) st).2.1.length = st.2.1.length) := by
  induction es generalizing st with
  | nil => exact ⟨rfl, rfl⟩
  | cons j rest ih =>
    rw [List.foldl_cons]
    obtain ⟨h1, h2⟩ := ih (entryStep P map probeKeys rowIdx st j)
    obtain ⟨g1, g2⟩ := entryStep_lengths P map probeKeys rowIdx st j
    exact ⟨h1.trans g1, h2.trans g2⟩

theorem processRow_lengths (P : JoinerParams) (map : JoinHashMap)
    (probeKeys : List (Option Nat)) (st : List Bool × SemiJoiner) (rowIdx : Nat) :
    ((processRow P map probeKeys st rowIdx).1.length = st.1.length)
    ∧ ((processRow P map probeKeys st rowIdx).2.map_joined.length
        = st.2.map_joined.length) := by
  unfold processRow
  cases hk : probeKeys.getD rowIdx none with
  | none => exact ⟨rfl, rfl⟩
  | some k =>
    dsimp only
    split
    · exact ⟨rfl, rfl⟩
    · have h := foldl_entryStep_lengths (map.entries (map.hashOf k)) P map probeKeys rowIdx
        (st.1, st.2.map_joined, false)
      exact ⟨h.1, h.2⟩

theorem foldl_processRow_lengths (rows : List Nat) (P : JoinerParams)
    (map : JoinHashMap) (probeKeys : List (Option Nat)) (st : List Bool × SemiJoiner) :
    ((rows.foldl (processRow P map probeKeys) st).1.length = st.1.length)
    ∧ ((rows.foldl (processRow P map probeKeys) st).2.map_joined.length
        = st.2.map_joined.length) := by
  induction rows generalizing st with
  | nil => exact ⟨rfl, rfl⟩
  | cons r rest ih =>
    rw [List.foldl_cons]
    obtain ⟨h1, h2⟩ := ih (processRow P map probeKeys st r)
    obtain ⟨g1, g2⟩ := processRow_lengths P map probeKeys st r
    exact ⟨h1.trans g1, h2.trans g2⟩

theorem foldl_joinBatch_mj_length (batches : List (List (Option Nat)))
    (P : JoinerParams) (map : JoinHashMap) (J : SemiJoiner) :
    (batches.foldl (fun J b => (joinBatch P map b J).1) J).map_joined.length
      = J.map_joined.length := by
  induction batches generalizing J with
  | nil => rfl
  | cons bt rest ih =>
    rw [List.foldl_cons, ih, joinBatch_state]
    exact (foldl_processRow_lengths _ _ _ _ _).2

theorem runJoiner_mj_length (P : JoinerParams) (map : JoinHashMap)
    (batches : List (List (Option Nat))) :
    (runJoiner P map batches).map_joined.length = map.numRows := by
  unfold runJoiner
  rw [foldl_joinBatch_mj_length]
  simp [SemiJoiner.new]

theorem emitIndices_semi_mem (joined : List Bool) (i : Nat) :
    i ∈ emitIndices SemiMode.Semi joined
      ↔ (i < joined.length ∧ joined.getD i false = true) := by
  have hb : (SemiMode.Semi == SemiMode.Semi) = true := rfl
  simp only [emitIndices, List.mem_filter, List.mem_range, hb, Bool.true_xor,
    Bool.not_not]

theorem emitIndices_anti_mem (joined : List Bool) (i : Nat) :
    i ∈ emitIndices SemiMode.Anti joined
      ↔ (i < joined.length ∧ joined.getD i false = false) := by
  have hb : (SemiMode.Anti == SemiMode.Semi) = false := rfl
  simp only [emitIndices, List.mem_filter, List.mem_range, hb, Bool.false_xor,
    Bool.not_eq_true']

theorem joinBatch_state_mode_irrelevant (side : ProbeSide) (b : Bool) (m1 m2 : SemiMode)
    (map : JoinHashMap) (probeKeys : List (Option Nat)) (J : SemiJoiner) :
    (joinBatch ⟨side, b, m1⟩ map probeKeys J).1
      = (joinBatch ⟨side, b, m2⟩ map probeKeys J).1 := by
  rw [joinBatch_state, joinBatch_state,
    processRow_mode_irrelevant side b m1 m2 map probeKeys]

theorem foldl_joinBatch_mode_irrelevant (batches : List (List (Option Nat)))
    (side : ProbeSide) (b : Bool) (m1 m2 : SemiMode) (map : JoinHashMap)
    (J : SemiJoiner) :
    batches.foldl (fun J bt => (joinBatch ⟨side, b, m1⟩ map bt J).1) J
      = batches.foldl (fun J bt => (joinBatch ⟨side, b, m2⟩ map bt J).1) J := by
  induction batches generalizing J with
  | nil => rfl
  | cons bt rest ih =>
    rw [List.foldl_cons, List.foldl_cons,
      joinBatch_state_mode_irrelevant side b m1 m2 map bt J, ih]

/-- C9: with the same inputs and the same probe side, the probing phase
does not depend on the mode, so the rows the Semi variant emits and the
rows the Anti variant emits are disjoint and together exhaust the
emitted relation — every probe-batch row when the probe side is the join
side, every build row (at finish, after any sequence of batches) when
the map side is the join side. -/
theorem semi_anti_partition :
    (∀ (side : ProbeSide) (map : JoinHashMap) (probeKeys : List (Option Nat))
       (J : SemiJoiner) (i : Nat),
      (¬ (i ∈ ((joinBatch ⟨side, true, SemiMode.Semi⟩ map probeKeys J).2.headD
              ⟨[], none⟩).indices
          ∧ i ∈ ((joinBatch ⟨side, true, SemiMode.Anti⟩ map probeKeys J).2.headD
              ⟨[], none⟩).indices))
      ∧ ((i ∈ ((joinBatch ⟨side, true, SemiMode.Semi⟩ map probeKeys J).2.headD
              ⟨[], none⟩).indices
          ∨ i ∈ ((joinBatch ⟨side, true, SemiMode.Anti⟩ map probeKeys J).2.headD
              ⟨[], none⟩).indices)
         ↔ i < probeKeys.length))
  ∧ (∀ (side : ProbeSide) (map : JoinHashMap) (batches : List (List (Option Nat)))
       (i : Nat),
      (¬ (i ∈ ((SemiJoiner.finish ⟨side, false, SemiMode.Semi⟩
              (runJoiner ⟨side, false, SemiMode.Semi⟩ map batches)).headD
              ⟨[], none⟩).indices
          ∧ i ∈ ((SemiJoiner.finish ⟨side, false, SemiMode.Anti⟩
              (runJoiner ⟨side, false, SemiMode.Anti⟩ map batches)).headD
              ⟨[], none⟩).indices))
      ∧ ((i ∈ ((SemiJoiner.finish ⟨side, false, SemiMode.Semi⟩
              (runJoiner ⟨side, false, SemiMode.Semi⟩ map batches)).headD
              ⟨[], none⟩).indices
          ∨ i ∈ ((SemiJoiner.finish ⟨side, false, SemiMode.Anti⟩
              (runJoiner ⟨side, false, SemiMode.Anti⟩ map batches)).headD
              ⟨[], none⟩).indices)
         ↔ i < map.numRows)) := by
  constructor
  · intro side map probeKeys J i
    have hS : ((joinBatch ⟨side, true, SemiMode.Semi⟩ map probeKeys J).2.headD
          ⟨[], none⟩).indices
        = emitIndices SemiMode.Semi
            ((List.range probeKeys.length).foldl
              (processRow ⟨side, true, SemiMode.Semi⟩ map probeKeys)
              (List.replicate probeKeys.length false, J)).1 := rfl
    have hA : ((joinBatch ⟨side, true, SemiMode.Anti⟩ map probeKeys J).2.headD
          ⟨[], none⟩).indices
        = emitIndices SemiMode.Anti
            ((List.range probeKeys.length).foldl
              (processRow ⟨side, true, SemiMode.Anti⟩ map probeKeys)
              (List.replicate probeKeys.length false, J)).1 := rfl
    rw [hS, hA,
      processRow_mode_irrelevant side true SemiMode.Anti SemiMode.Semi map probeKeys]
    set pj := ((List.range probeKeys.length).foldl
      (processRow ⟨side, true, SemiMode.Semi⟩ map probeKeys)
      (List.replicate probeKeys.length false, J)).1 with hpj
    have hlen : pj.length = probeKeys.length := by
      rw [hpj, (foldl_processRow_lengths _ _ _ _ _).1]
      simp
    refine ⟨?_, ?_, ?_⟩
    · rintro ⟨h1, h2⟩
      have g1 := (emitIndices_semi_mem pj i).mp h1
      have g2 := (emitIndices_anti_mem pj i).mp h2
      exact Bool.noConfusion (g1.2.symm.trans g2.2)
    · rintro (h | h)
      · exact hlen ▸ ((emitIndices_semi_mem pj i).mp h).1
      · exact hlen ▸ ((emitIndices_anti_mem pj i).mp h).1
    · intro hi
      have hi2 : i < pj.length := by rw [hlen]; exact hi
      cases hgd : pj.getD i false with
      | false => exact Or.inr ((emitIndices_anti_mem pj i).mpr ⟨hi2, hgd⟩)
      | true => exact Or.inl ((emitIndices_semi_mem pj i).mpr ⟨hi2, hgd⟩)
  · intro side map batches i
    have hS : ((SemiJoiner.finish ⟨side, false, SemiMode.Semi⟩
          (runJoiner ⟨side, false, SemiMode.Semi⟩ map batches)).headD
          ⟨[], none⟩).indices
        = emitIndices SemiMode.Semi
            (runJoiner ⟨side, false, SemiMode.Semi⟩ map batches).map_joined := rfl
    have hA : ((SemiJoiner.finish ⟨side, false, SemiMode.Anti⟩
          (runJoiner ⟨side, false, SemiMode.Anti⟩ map batches)).headD
          ⟨[], none⟩).indices
        = emitIndices SemiMode.Anti
            (runJoiner ⟨side, false, SemiMode.Anti⟩ map batches).map_joined := rfl
    have hrm : runJoiner ⟨side, false, SemiMode.Anti⟩ map batches
        = runJoiner ⟨side, false, SemiMode.Semi⟩ map batches := by
      unfold runJoiner
      exact foldl_joinBatch_mode_irrelevant batches side false SemiMode.Anti
        SemiMode.Semi map (SemiJoiner.new map)
    rw [hS, hA, hrm]
    set mj := (runJoiner ⟨side, false, SemiMode.Semi⟩ map batches).map_joined with hmj
    have hlen : mj.length = map.numRows := by
      rw [hmj, runJoiner_mj_length]
    refine ⟨?_, ?_, ?_⟩
    · rintro ⟨h1, h2⟩
      have g1 := (emitIndices_semi_mem mj i).mp h1
      have g2 := (emitIndices_anti_mem mj i).mp h2
      exact Bool.noConfusion (g1.2.symm.trans g2.2)
    · rintro (h | h)
      · exact hlen ▸ ((emitIndices_semi_mem mj i).mp h).1
      · exact hlen ▸ ((emitIndices_anti_mem mj i).mp h).1
    · intro hi
      have hi2 : i < mj.length := by rw [hlen]; exact hi
      cases hgd : mj.getD i false with
      | false => exact Or.inr ((emitIndices_anti_mem mj i).mpr ⟨hi2, hgd⟩)
      | true => exact Or.inl ((emitIndices_semi_mem mj i).mpr ⟨hi2, hgd⟩)

/-! Claim C7: the hash_skippable optimisation. -/

/-- C7 counterexample: with the map side as the join side, a first probe
row matches build row 0 (marking it joined); a second probe row with the
same hash then finds only already-joined candidates, its continue skips
the maybe_joined assignment, and the hash is inserted into
hash_skippable although entry_indices returned a candidate for it. -/
theorem hash_skippable_inserted_with_entries :
    ((joinBatch RIGHT_PROBED_LEFT_SEMI exMap [some 5, some 5]
        (SemiJoiner.new exMap)).1.hash_skippable.contains 5 = true)
    ∧ (exMap.entries 5 ≠ []) := by
  constructor
  · decide
  · decide

theorem getD_set_true_mono (l : List Bool) (j j0 : Nat)
    (h : l.getD j0 false = true) :
    (l.set j true).getD j0 false = true := by
  by_cases hj : j0 = j
  · subst hj
    by_cases hlt : j0 < l.length
    · exact getD_set_self _ _ _ _ hlt
    · rw [List.set_eq_of_length_le (Nat.le_of_not_lt hlt)]
      exact h
  · rw [getD_set_ne _ _ _ _ _ hj]
    exact h

theorem entryStep_mj_mono (P : JoinerParams) (map : JoinHashMap)
    (probeKeys : List (Option Nat)) (rowIdx : Nat)
    (st : List Bool × List Bool × Bool) (j j0 : Nat)
    (h : st.2.1.getD j0 false = true) :
    (entryStep P map probeKeys rowIdx st j).2.1.getD j0 false = true := by
  simp only [entryStep]
  split
  · exact h
  · dsimp only
    split
    · exact getD_set_true_mono _ _ _ h
    · exact h

theorem foldl_entryStep_mj_mono (es : List Nat) (P : JoinerParams)
    (map : JoinHashMap) (probeKeys : List (Option Nat)) (rowIdx : Nat)
    (st : List Bool × List Bool × Bool) (j0 : Nat)
    (h : st.2.1.getD j0 false = true) :
    ((es.foldl (entryStep P map probeKeys rowIdx) st).2.1.getD j0 false = true) := by
  induction es generalizing st with
  | nil => exact h
  | cons j rest ih =>
    rw [List.foldl_cons]
    exact ih _ (entryStep_mj_mono P map probeKeys rowIdx st j j0 h)

theorem entryStep_maybe_mono (P : JoinerParams) (map : JoinHashMap)
    (probeKeys : List (Option Nat)) (rowIdx : Nat)
    (st : List Bool × List Bool × Bool) (j : Nat) (h : st.2.2 = true) :
    (entryStep P map probeKeys rowIdx st j).2.2 = true := by
  simp only [entryStep]
  split
  · exact h
  · rfl

theorem foldl_entryStep_maybe_mono (es : List Nat) (P : JoinerParams)
    (map : JoinHashMap) (probeKeys : List (Option Nat)) (rowIdx : Nat)
    (st : List Bool × List Bool × Bool) (h : st.2.2 = true) :
    (es.foldl (entryStep P map probeKeys rowIdx) st).2.2 = true := by
  induction es generalizing st with
  | nil => exact h
  | cons j rest ih =>
    rw [List.foldl_cons]
    exact ih _ (entryStep_maybe_mono P map probeKeys rowIdx st j h)

/-- When the candidate loop ends with maybe_joined still false, every
candidate was already marked in map_joined when it was reached, so every
candidate is marked at the end of the loop. -/
theorem foldl_entryStep_maybe_false (es : List Nat) (P : JoinerParams)
    (map : JoinHashMap) (probeKeys : List (Option Nat)) (rowIdx : Nat)
    (st : List Bool × List Bool × Bool)
    (hP : P.probe_is_join_side = false)
    (hend : (es.foldl (entryStep P map probeKeys rowIdx) st).2.2 = false) :
    ∀ j ∈ es, ((es.foldl (entryStep P map probeKeys rowIdx) st).2.1.getD j false
      = true) := by
  induction es generalizing st with
  | nil =>
    intro j hj
    simp at hj
  | cons j0 rest ih =>
    intro j hj
    rw [List.foldl_cons] at hend ⊢
    by_cases hskip : (!P.probe_is_join_side && st.2.1.getD j0 false) = true
    · have hstep : entryStep P map probeKeys rowIdx st j0 = st := by
        simp only [entryStep]
        rw [if_pos hskip]
      rcases List.mem_cons.mp hj with rfl | hj2
      · have hj0 : st.2.1.getD j false = true := by
          rw [hP] at hskip
          simpa using hskip
        rw [hstep]
        exact foldl_entryStep_mj_mono rest P map probeKeys rowIdx st j hj0
      · rw [hstep] at hend ⊢
        exact ih st hend j hj2
    · have hmay : (entryStep P map probeKeys rowIdx st j0).2.2 = true := by
        simp only [entryStep]
        rw [if_neg hskip]
      have htrue := foldl_entryStep_maybe_mono rest P map probeKeys rowIdx
        (entryStep P map probeKeys rowIdx st j0) hmay
      rw [htrue] at hend
      exact absurd hend (by simp)

theorem mem_insertHash (h0 h : Nat) (s : List Nat) :
    h0 ∈ insertHash h s ↔ (h0 ∈ s ∨ h0 = h) := by
  unfold insertHash
  split
  · rename_i hin
    constructor
    · exact fun hm => Or.inl hm
    · rintro (hm | rfl)
      · exact hm
      · exact hin
  · simp [List.mem_append]

/-- The hash_skippable invariant: every candidate of every recorded hash
is marked in map_joined. -/
def SkippableInv (map : JoinHashMap) (J : SemiJoiner) : Prop :=
  ∀ h ∈ J.hash_skippable, ∀ j ∈ map.entries h, J.map_joined.getD j false = true

theorem processRow_skippable_inv (P : JoinerParams) (map : JoinHashMap)
    (probeKeys : List (Option Nat)) (st : List Bool × SemiJoiner) (rowIdx : Nat)
    (hP : P.probe_is_join_side = false)
    (hinv : SkippableInv map st.2) :
    SkippableInv map (processRow P map probeKeys st rowIdx).2 := by
  unfold SkippableInv at hinv ⊢
  unfold processRow
  cases hk : probeKeys.getD rowIdx none with
  | none => exact hinv
  | some k =>
    dsimp only
    split
    · exact hinv
    · intro h hh j hj
      by_cases hmay : ((map.entries (map.hashOf k)).foldl
          (entryStep P map probeKeys rowIdx) (st.1, st.2.map_joined, false)).2.2 = true
      · have hc : (!P.probe_is_join_side
            && !((map.entries (map.hashOf k)).foldl
              (entryStep P map probeKeys rowIdx) (st.1, st.2.map_joined, false)).2.2)
            = false := by
          rw [hmay]
          simp
        rw [hc] at hh
        simp only [Bool.false_eq_true, if_false] at hh
        exact foldl_entryStep_mj_mono _ P map probeKeys rowIdx _ j (hinv h hh j hj)
      · have hff : ((map.entries (map.hashOf k)).foldl
            (entryStep P map probeKeys rowIdx) (st.1, st.2.map_joined, false)).2.2
            = false := Bool.eq_false_iff.mpr hmay
        have hc : (!P.probe_is_join_side
            && !((map.entries (map.hashOf k)).foldl
              (entryStep P map probeKeys rowIdx) (st.1, st.2.map_joined, false)).2.2)
            = true := by
          rw [hP, hff]
          rfl
        rw [hc] at hh
        simp only [if_true] at hh
        rw [mem_insertHash] at hh
        rcases hh with hh | rfl
        · exact foldl_entryStep_mj_mono _ P map probeKeys rowIdx _ j (hinv h hh j hj)
        · exact foldl_entryStep_maybe_false _ P map probeKeys rowIdx _ hP hff j hj

theorem foldl_processRow_skippable_inv (rows : List Nat) (P : JoinerParams)
    (map : JoinHashMap) (probeKeys : List (Option Nat)) (st : List Bool × SemiJoiner)
    (hP : P.probe_is_join_side = false)
    (hinv : SkippableInv map st.2) :
    SkippableInv map ((rows.foldl (processRow P map probeKeys) st).2) := by
  induction rows generalizing st with
  | nil => exact hinv
  | cons r rest ih =>
    rw [List.foldl_cons]
    exact ih _ (processRow_skippable_inv P map probeKeys st r hP hinv)

theorem joinBatch_skippable_inv (P : JoinerParams) (map : JoinHashMap)
    (probeKeys : List (Option Nat)) (J : SemiJoiner)
    (hP : P.probe_is_join_side = false)
    (hinv : SkippableInv map J) :
    SkippableInv map (joinBatch P map probeKeys J).1 := by
  rw [joinBatch_state]
  exact foldl_processRow_skippable_inv _ P map probeKeys _ hP hinv

/-- C7 amended: with the map side as the join side, a hash is inserted
into hash_skippable exactly when the candidate loop examined no
unjoined candidate — in particular also when entry_indices returned
candidates but all of them were already in map_joined.  Because
map_joined only grows, every hash in hash_skippable always has all its
candidates marked in map_joined, which is why skipping it cannot lose
output. -/
theorem hash_skippable_amended (side : ProbeSide) (mode : SemiMode)
    (map : JoinHashMap) (batches : List (List (Option Nat))) :
    ∀ h ∈ (runJoiner ⟨side, false, mode⟩ map batches).hash_skippable,
      ∀ j ∈ map.entries h,
        (runJoiner ⟨side, false, mode⟩ map batches).map_joined.getD j false = true := by
  have hbase : SkippableInv map (SemiJoiner.new map) := by
    intro h hh j hj
    simp [SemiJoiner.new] at hh
  suffices hgen : ∀ (J : SemiJoiner), SkippableInv map J →
      SkippableInv map (batches.foldl
        (fun J b => (joinBatch ⟨side, false, mode⟩ map b J).1) J) by
    exact hgen (SemiJoiner.new map) hbase
  induction batches with
  | nil => exact fun J hJ => hJ
  | cons bt rest ih =>
    intro J hJ
    rw [List.foldl_cons]
    exact ih _ (joinBatch_skippable_inv _ map bt J rfl hJ)

/-- Witness for hash_skippable_amended at the counterexample scenario:
hash 5 is recorded as skippable while its only candidate, build row 0,
is marked joined. -/
theorem hash_skippable_amended_witness :
    (5 ∈ (runJoiner ⟨ProbeSide.R, false, SemiMode.Semi⟩ exMap
        [[some 5, some 5]]).hash_skippable)
    ∧ (0 ∈ exMap.entries 5)
    ∧ ((runJoiner ⟨ProbeSide.R, false, SemiMode.Semi⟩ exMap
        [[some 5, some 5]]).map_joined.getD 0 false = true) :=
  ⟨by decide, by decide,
   hash_skippable_amended ProbeSide.R SemiMode.Semi exMap [[some 5, some 5]]
     5 (by decide) 0 (by decide)⟩

end Blaze
